import Mathlib

/-!
Verification development for the epicycle-animation pipeline
(src/epicycles.py).  The numerical core of the program is shallowly
embedded below:

* point arrays become lists of rational pairs (`Point`); the rationals
  stand for the floating point values, and every comparison the program
  performs on `np.linalg.norm` values is modelled by the order-equivalent
  comparison of squared norms, which keeps the embedding decidable;
* `connect_contours_tsp` embeds the greedy stitching loop, with an
  explicit fuel argument equal to the initial contour count (the Python
  `while remaining` loop removes at least one contour per iteration, so
  this fuel is never exhausted before `remaining` empties);
* `find_optimal_epicycles` embeds the energy based truncation, generic in
  a linear ordered field so that it can be instantiated both at `ℚ`
  (for executable witnesses) and at `ℝ` (downstream of the DFT); the
  out-of-range list indexing that Python turns into an `IndexError` is
  modelled by returning `none`; field division by zero (which numpy turns
  into a `nan` that compares false against the threshold) is modelled by
  the Lean convention `x / 0 = 0`, which likewise compares false against
  any positive threshold;
* `precompute_animation` embeds the per-frame nested-vector chain over
  `ℂ`, with `Complex.exp` in place of `np.exp`.
-/

namespace Epicycles

/-- Planar point: one row of the numpy point arrays.  Coordinates are
rationals standing for the floating point coordinate values. -/
abbrev Point : Type := ℚ × ℚ

/-- Squared Euclidean distance between two points.  The source compares
`np.linalg.norm(a - b)` values against each other; comparisons of norms
coincide with comparisons of squared norms. -/
def sqDist (p q : Point) : ℚ := (p.1 - q.1) ^ 2 + (p.2 - q.2) ^ 2

/-- Genuine Euclidean distance, for restating the greedy-choice claims in
the exact metric used by `np.linalg.norm`. -/
noncomputable def euclDist (p q : Point) : ℝ := Real.sqrt ((sqDist p q : ℚ) : ℝ)

/-- First element of a list, with an explicit fallback (the Python code
only evaluates `contour[0]` on nonempty arrays). -/
def headD {α : Type} (d : α) : List α → α
  | [] => d
  | a :: _ => a

/-- Last element of a list, with an explicit fallback (the Python code
only evaluates `contour[-1]` on nonempty arrays). -/
def lastD {α : Type} (d : α) : List α → α
  | [] => d
  | [a] => a
  | _ :: b :: l => lastD d (b :: l)

/-! ### PathSampler (load_and_process_svg, lines 68-78) -/

/-- The arc-length sampling targets of one path segment: the loop
`for i in range(M): arc_length = (i / M) * path_length`. -/
def sampleTargets (M : ℕ) (L : ℚ) : List ℚ :=
  (List.range M).map fun i : ℕ => ((i : ℚ) / (M : ℚ)) * L

/-- One segment's sampling loop.  `il` is the abstract arc-length
inversion `path.ilength` (the `try` block; `none` models the exception,
in which case the uniform parameter `i / M` is used), `pt` is the
abstract `path.point`. -/
def samplePath (M : ℕ) (L : ℚ) (il : ℚ → Option ℚ) (pt : ℚ → Point) : List Point :=
  (List.range M).map fun i : ℕ =>
    pt ((il (((i : ℚ) / (M : ℚ)) * L)).getD ((i : ℚ) / (M : ℚ)))

/-! ### ContourStitcher (connect_contours_tsp, lines 99-129) -/

/-- Whether a candidate endpoint distance beats the best distance found
so far (`dist < best_dist`; `none` is the initial `float('inf')`). -/
def improves (d : ℚ) (st : Option (List Point × ℚ × Bool)) : Prop :=
  match st with
  | none => True
  | some v => d < v.2.1

instance (d : ℚ) (st : Option (List Point × ℚ × Bool)) : Decidable (improves d st) :=
  match st with
  | none => isTrue True.intro
  | some v => inferInstanceAs (Decidable (d < v.2.1))

/-- One iteration of the inner `for contour in remaining` loop: check the
contour's start point, then its end point, against the best found so far.
The state holds the best contour, its best endpoint distance, and the
`should_reverse` flag. -/
def stepBest (pos : Point) (st : Option (List Point × ℚ × Bool)) (c : List Point) :
    Option (List Point × ℚ × Bool) :=
  let st1 := if improves (sqDist pos (headD (0, 0) c)) st
    then some (c, sqDist pos (headD (0, 0) c), false) else st
  if improves (sqDist pos (lastD (0, 0) c)) st1
    then some (c, sqDist pos (lastD (0, 0) c), true) else st1

/-- The full inner loop: fold `stepBest` over the remaining contours. -/
def pickBest (pos : Point) (remaining : List (List Point)) :
    Option (List Point × ℚ × Bool) :=
  remaining.foldl (stepBest pos) none

/-- The `while remaining` loop.  Each iteration appends the chosen
contour (reversed when `should_reverse`), advances the current position
to its last point, and drops from `remaining` every contour equal to the
appended block or to its reverse (the Python list comprehension with
`np.array_equal`).  The fuel argument bounds the number of iterations;
`connect_contours_tsp` passes the initial contour count, which suffices
because every iteration removes at least the chosen contour. -/
def stitchLoop : ℕ → Point → List (List Point) → List (List Point)
  | 0, _, _ => []
  | fuel + 1, pos, remaining =>
    match pickBest pos remaining with
    | none => []
    | some (c, _, rev) =>
      let b := if rev then c.reverse else c
      b :: stitchLoop fuel (lastD (0, 0) b)
          (remaining.filter fun x => decide (x ≠ b ∧ x ≠ b.reverse))

/-- `connect_contours_tsp`: start at the first point of the first
contour, run the greedy loop, concatenate the chosen blocks. -/
def connect_contours_tsp (contours : List (List Point)) : List Point :=
  (stitchLoop contours.length (headD (0, 0) (headD [] contours)) contours).flatten

/-- The invariant maintained by the inner `for` loop of the stitcher over
the already visited contours: the stored best contour is one of them, the
stored distance is the distance to the endpoint selected by the
`should_reverse` flag, the flag is set exactly when the contour's end
point is strictly nearer than its start point, and the stored distance is
minimal among all endpoint distances seen so far. -/
def BestInv (pos : Point) (visited : List (List Point)) :
    Option (List Point × ℚ × Bool) → Prop
  | none => visited = []
  | some v =>
    v.1 ∈ visited ∧
    v.2.1 = (if v.2.2 then sqDist pos (lastD (0, 0) v.1) else sqDist pos (headD (0, 0) v.1)) ∧
    (v.2.2 = true ↔ sqDist pos (lastD (0, 0) v.1) < sqDist pos (headD (0, 0) v.1)) ∧
    ∀ x ∈ visited, v.2.1 ≤ sqDist pos (headD (0, 0) x) ∧ v.2.1 ≤ sqDist pos (lastD (0, 0) x)

/-- No two input contours are equal, or equal up to point reversal.  This
is the side condition under which the stitcher's removal step
(`not np.array_equal(c, best) and not np.array_equal(c, best[::-1])`)
removes exactly the appended contour. -/
def distinctUpToRev (l : List (List Point)) : Prop :=
  l.Pairwise fun a b => a ≠ b ∧ a ≠ b.reverse

/-! ### Normalizer (load_and_process_svg, lines 86-94) -/

/-- Squared closing tolerance: the source closes the traversal when
`np.linalg.norm(first - last) > 1e-6`. -/
def tolSq : ℚ := 1 / 1000000000000

/-- Close the traversal by appending the first point when first and last
are farther apart than the tolerance. -/
def closeStep (pts : List Point) : List Point :=
  if tolSq < sqDist (headD (0, 0) pts) (lastD (0, 0) pts) then pts ++ [headD (0, 0) pts]
  else pts

/-- `np.mean(ordered_points, axis=0)`. -/
def meanPoint (pts : List Point) : Point :=
  ((pts.map Prod.fst).sum / (pts.length : ℚ), (pts.map Prod.snd).sum / (pts.length : ℚ))

/-- Subtract the centroid from every point. -/
def centerPts (pts : List Point) : List Point :=
  pts.map fun p => (p.1 - (meanPoint pts).1, p.2 - (meanPoint pts).2)

/-- Largest absolute value among a point's two coordinates. -/
def absComp (p : Point) : ℚ := max |p.1| |p.2|

/-- `np.max(np.abs(points))`: the maximum absolute coordinate component
over the whole array (0 for the empty list; all entries are nonnegative,
so the 0 fallback agrees with the true maximum on nonempty input). -/
def maxAbsComp (pts : List Point) : ℚ := (pts.map absComp).foldr max 0

/-- The guarded scaling step: `if max_extent > 0: points = points /
max_extent * scale_factor`. -/
def scaleStep (s : ℚ) (pts : List Point) : List Point :=
  if 0 < maxAbsComp pts then
    pts.map fun p => (p.1 / maxAbsComp pts * s, p.2 / maxAbsComp pts * s)
  else pts

/-- Lines 86-94 of the source: close, center, then scale. -/
def normalizeTraversal (s : ℚ) (pts : List Point) : List Point :=
  scaleStep s (centerPts (closeStep pts))

/-! ### FourierAnalyzer (compute_fourier_coefficients and
find_optimal_epicycles, lines 136-177) -/

/-- One `(frequency, coefficient)` pair.  The coefficient is a complex
value represented by its real and imaginary parts in the field `K`
(instantiated at `ℚ` for executable witnesses and at `ℝ` downstream of
the DFT). -/
abbrev EpiTerm (K : Type) : Type := ℤ × K × K

/-- Squared magnitude `abs(coeff) ** 2` of a coefficient. -/
def normSq {K : Type} [LinearOrderedField K] (c : K × K) : K := c.1 * c.1 + c.2 * c.2

/-- The sorting relation of `sorted(..., key=lambda x: abs(x[1]),
reverse=True)`: magnitude of the first pair at least that of the second.
Comparing squared magnitudes is order-equivalent to comparing the
magnitudes themselves. -/
def magGE {K : Type} [LinearOrderedField K] (a b : EpiTerm K) : Prop :=
  normSq b.2 ≤ normSq a.2

instance {K : Type} [LinearOrderedField K] : DecidableRel (@magGE K _) :=
  fun a b => inferInstanceAs (Decidable (normSq b.2 ≤ normSq a.2))

instance {K : Type} [LinearOrderedField K] : IsTotal (EpiTerm K) magGE :=
  ⟨fun a b => le_total (normSq b.2) (normSq a.2)⟩

instance {K : Type} [LinearOrderedField K] : IsTrans (EpiTerm K) magGE :=
  ⟨fun _ _ _ hab hbc => le_trans hbc hab⟩

/-- The coefficient list sorted by descending magnitude (a stable sort,
like Python's `sorted`). -/
def sortItems {K : Type} [LinearOrderedField K] (coeffs : List (EpiTerm K)) :
    List (EpiTerm K) :=
  List.insertionSort magGE coeffs

/-- Cumulative energy of the first `n` entries of a coefficient list. -/
def energyUpTo {K : Type} [LinearOrderedField K] (l : List (EpiTerm K)) (n : ℕ) : K :=
  ((l.take n).map fun p => normSq p.2).sum

/-- `total_energy = sum(abs(c)**2 for _, c in sorted_items)`. -/
def totalEnergy {K : Type} [LinearOrderedField K] (l : List (EpiTerm K)) : K :=
  (l.map fun p => normSq p.2).sum

/-- The `for i, (freq, coeff) in enumerate(sorted_items, 1)` scan: return
the 1-based index of the first prefix whose cumulative energy ratio
reaches the threshold, or 0 when the loop finishes without a `break`
(exactly Python's `optimal_count` right after the loop).  `acc` is the
running `cumulative_energy` and `i` the number of items already
consumed. -/
def thresholdScan {K : Type} [LinearOrderedField K] (θ total : K) :
    K → ℕ → List (EpiTerm K) → ℕ
  | _, _, [] => 0
  | acc, i, t :: rest =>
    if θ ≤ (acc + normSq t.2) / total then i + 1
    else thresholdScan θ total (acc + normSq t.2) (i + 1) rest

/-- `optimal_count` after the `if optimal_count == 0` fallback (lines
158-168): the pre-clamp term count chosen by the threshold scan. -/
def preClampCount {K : Type} [LinearOrderedField K] (θ : K)
    (coeffs : List (EpiTerm K)) : ℕ :=
  if thresholdScan θ (totalEnergy (sortItems coeffs)) 0 0 (sortItems coeffs) = 0 then
    (sortItems coeffs).length
  else thresholdScan θ (totalEnergy (sortItems coeffs)) 0 0 (sortItems coeffs)

/-- The configuration values read from `CONFIG` by the analyzer. -/
structure EpiConfig (K : Type) where
  energy_threshold : K
  min_epicycles : ℕ
  max_epicycles : ℕ

/-- Whether the cumulative energy ratio of the first `n` sorted terms
reaches the threshold (`energy_ratio >= CONFIG['energy_threshold']`). -/
def reachedAt {K : Type} [LinearOrderedField K] (θ : K) (coeffs : List (EpiTerm K))
    (n : ℕ) : Prop :=
  θ ≤ energyUpTo (sortItems coeffs) n / totalEnergy (sortItems coeffs)

/-- `find_optimal_epicycles` (lines 148-177): sort, scan for the energy
threshold, clamp to the `[min_epicycles, max_epicycles]` bounds, return
the clamped count, the corresponding prefix of the sorted list, and the
recomputed energy ratio.  The final recomputation indexes
`sorted_items[i]` for `i < optimal_count`, which raises `IndexError`
exactly when the clamped count exceeds the list length; that raise is
modelled by `none`. -/
def find_optimal_epicycles {K : Type} [LinearOrderedField K] (cfg : EpiConfig K)
    (coeffs : List (EpiTerm K)) : Option (ℕ × List (EpiTerm K) × K) :=
  if max cfg.min_epicycles
        (min (preClampCount cfg.energy_threshold coeffs) cfg.max_epicycles)
      ≤ (sortItems coeffs).length then
    some (max cfg.min_epicycles
        (min (preClampCount cfg.energy_threshold coeffs) cfg.max_epicycles),
      (sortItems coeffs).take (max cfg.min_epicycles
        (min (preClampCount cfg.energy_threshold coeffs) cfg.max_epicycles)),
      energyUpTo (sortItems coeffs) (max cfg.min_epicycles
          (min (preClampCount cfg.energy_threshold coeffs) cfg.max_epicycles))
        / totalEnergy (sortItems coeffs))
  else none

/-- `np.fft.fftfreq(N, d=1.0/N).astype(int)`: the standard DFT bin
indices `[0, 1, ..., ceil(N/2)-1, -floor(N/2), ..., -1]`. -/
def fftfreqs (N : ℕ) : List ℤ :=
  (List.range N).map fun j => if j < (N + 1) / 2 then (j : ℤ) else (j : ℤ) - (N : ℤ)

/-- Bin `k` of `np.fft.fft(z) / N`: `(1/N) * Σ_j z_j exp(-2πi k j / N)`. -/
noncomputable def dftCoeff (z : List ℂ) (k : ℤ) : ℂ :=
  ((List.range z.length).map fun j =>
      z.getD j 0 *
        Complex.exp (-(2 * (Real.pi : ℂ) * Complex.I * (k : ℂ) * (j : ℂ)) / (z.length : ℂ))).sum
    / (z.length : ℂ)

/-- `compute_fourier_coefficients` (lines 136-145): form `z = x + iy`,
take the normalized DFT, and pair each standard bin index with its
coefficient, in `fftfreq` order (the dict preserves this insertion
order, and `sorted(coefficients.items(), ...)` consumes it as such). -/
noncomputable def compute_fourier_coefficients (pts : List Point) : List (EpiTerm ℝ) :=
  (fftfreqs pts.length).map fun k =>
    (k, (dftCoeff (pts.map fun p => ⟨(p.1 : ℝ), (p.2 : ℝ)⟩) k).re,
        (dftCoeff (pts.map fun p => ⟨(p.1 : ℝ), (p.2 : ℝ)⟩) k).im)

/-! ### AnimationPrecomputer (precompute_animation, lines 184-223) -/

/-- A renderer-compatible 3-vector with zero z-component,
`np.array([w.real, w.imag, 0])`. -/
structure Vec3 where
  x : ℝ
  y : ℝ
  z : ℝ

/-- Convert a complex value to its renderer 3-vector. -/
def toVec3 (w : ℂ) : Vec3 := ⟨w.re, w.im, 0⟩

/-- `np.exp(2j * np.pi * freq * t)`. -/
noncomputable def epiRot (f : ℤ) (t : ℝ) : ℂ :=
  Complex.exp (2 * (Real.pi : ℂ) * Complex.I * (f : ℂ) * (t : ℂ))

/-- The accumulation `z += coeff * np.exp(2j*np.pi*freq*t)` over a term
list, starting from `z0`. -/
noncomputable def penFrom (t : ℝ) (z0 : ℂ) (terms : List (ℤ × ℂ)) : ℂ :=
  terms.foldl (fun w p => w + p.2 * epiRot p.1 t) z0

/-- The pen position (as a complex number) at normalized time `t`:
the loop of lines 192-194 starting from `complex(0, 0)`. -/
noncomputable def penPoint (terms : List (ℤ × ℂ)) (t : ℝ) : ℂ := penFrom t 0 terms

/-- One entry of the `circles` list: `{'center': ..., 'radius': ...}`. -/
structure CircleState where
  center : Vec3
  radius : ℝ

/-- One entry of the `vectors` list: start and end position.  The end
position field is called `stop` because `end` is reserved in Lean. -/
structure VectorState where
  start : Vec3
  stop : Vec3

/-- Default circle record, used only as the fallback of list indexing. -/
def cdef : CircleState := ⟨⟨0, 0, 0⟩, 0⟩

/-- Default vector record, used only as the fallback of list indexing. -/
def vdef : VectorState := ⟨⟨0, 0, 0⟩, ⟨0, 0, 0⟩⟩

/-- The chain-building loop of lines 197-219: walk the terms keeping the
running complex sum `cz` (`current_z`) and the previous 3-vector `pp`
(`prev_pos`), emitting one circle and one vector per term; also return
the final running sum. -/
noncomputable def chainAux (t : ℝ) :
    ℂ → Vec3 → List (ℤ × ℂ) → List CircleState × List VectorState × ℂ
  | cz, _, [] => ([], [], cz)
  | cz, pp, p :: rest =>
    (⟨pp, Complex.abs p.2⟩ :: (chainAux t (cz + p.2 * epiRot p.1 t)
        (toVec3 (cz + p.2 * epiRot p.1 t)) rest).1,
     ⟨pp, toVec3 (cz + p.2 * epiRot p.1 t)⟩ :: (chainAux t (cz + p.2 * epiRot p.1 t)
        (toVec3 (cz + p.2 * epiRot p.1 t)) rest).2.1,
     (chainAux t (cz + p.2 * epiRot p.1 t)
        (toVec3 (cz + p.2 * epiRot p.1 t)) rest).2.2)

/-- The per-frame chain state, started (as in the source) from
`current_z = complex(0, 0)` and `prev_pos = np.array([0, 0, 0])`. -/
noncomputable def frameChain (terms : List (ℤ × ℂ)) (t : ℝ) :
    List CircleState × List VectorState × ℂ :=
  chainAux t 0 ⟨0, 0, 0⟩ terms

/-- `precompute_animation` (lines 184-223): for each step `s` of
`range(num_steps)` with `t = s / num_steps`, the pen position 3-vector
and the frame's circle and vector lists. -/
noncomputable def precompute_animation (terms : List (ℤ × ℂ)) (S : ℕ) :
    List Vec3 × List (List CircleState × List VectorState) :=
  ((List.range S).map fun s : ℕ => toVec3 (penPoint terms ((s : ℝ) / (S : ℝ))),
   (List.range S).map fun s : ℕ =>
     ((frameChain terms ((s : ℝ) / (S : ℝ))).1,
      (frameChain terms ((s : ℝ) / (S : ℝ))).2.1))

/-! ### Concrete sample data used by witnesses and counterexamples -/

/-- Two identical 2-point contours (an input on which the stitcher's
removal step drops both copies at once). -/
def contoursDup : List (List Point) :=
  [[((0 : ℚ), (0 : ℚ)), ((1 : ℚ), (0 : ℚ))],
   [((0 : ℚ), (0 : ℚ)), ((1 : ℚ), (0 : ℚ))]]

/-- Two distinct 2-point contours (example scenario D of the spec). -/
def contoursD : List (List Point) :=
  [[((0 : ℚ), (0 : ℚ)), ((1 : ℚ), (0 : ℚ))],
   [((5 : ℚ), (5 : ℚ)), ((6 : ℚ), (5 : ℚ))]]

/-- A sample analyzer configuration over `ℚ`. -/
def cfgW : EpiConfig ℚ := ⟨1 / 2, 1, 3⟩

/-- A sample coefficient list over `ℚ`. -/
def coeffsW : List (EpiTerm ℚ) := [(0, (1, 0)), (1, (2, 0))]

/-- A sample traversal for the normalizer witness. -/
def ptsW : List Point := [((0 : ℚ), (0 : ℚ)), ((2 : ℚ), (0 : ℚ))]

/-- A sample analyzer configuration over `ℝ` (the default threshold of
`CONFIG`, with small bounds). -/
noncomputable def cfgR : EpiConfig ℝ := ⟨999 / 1000, 1, 5⟩

end Epicycles

namespace Epicycles

/-! ## Generic helper lemmas -/

lemma maxAbsComp_cons (p : Point) (l : List Point) :
    maxAbsComp (p :: l) = max (absComp p) (maxAbsComp l) := rfl

lemma maxAbsComp_nonneg (pts : List Point) : 0 ≤ maxAbsComp pts := by
  induction pts with
  | nil => exact le_refl 0
  | cons p l ih => exact le_trans ih (le_max_right _ _)

lemma absComp_mul (p : Point) (k : ℚ) (hk : 0 ≤ k) :
    absComp (p.1 * k, p.2 * k) = absComp p * k := by
  unfold absComp
  rw [abs_mul, abs_mul, abs_of_nonneg hk, max_mul_of_nonneg _ _ hk]

lemma maxAbsComp_map_mul (l : List Point) (k : ℚ) (hk : 0 ≤ k) :
    maxAbsComp (l.map fun p => (p.1 * k, p.2 * k)) = maxAbsComp l * k := by
  induction l with
  | nil => simp [maxAbsComp]
  | cons p t ih =>
    rw [List.map_cons, maxAbsComp_cons, maxAbsComp_cons, ih, absComp_mul p k hk,
      max_mul_of_nonneg _ _ hk]

lemma energyUpTo_cons_succ {K : Type} [LinearOrderedField K] (t : EpiTerm K)
    (l : List (EpiTerm K)) (n : ℕ) :
    energyUpTo (t :: l) (n + 1) = normSq t.2 + energyUpTo l n := by
  simp [energyUpTo]

lemma energyUpTo_zero {K : Type} [LinearOrderedField K] (l : List (EpiTerm K)) :
    energyUpTo l 0 = 0 := by
  simp [energyUpTo]

lemma thresholdScan_spec {K : Type} [LinearOrderedField K] (θ total : K)
    (l : List (EpiTerm K)) :
    ∀ (acc : K) (i : ℕ),
      (thresholdScan θ total acc i l = 0 ∧
        ∀ j, j < l.length → ¬ θ ≤ (acc + energyUpTo l (j + 1)) / total)
      ∨ ∃ j, j < l.length ∧ thresholdScan θ total acc i l = i + (j + 1)
          ∧ θ ≤ (acc + energyUpTo l (j + 1)) / total
          ∧ ∀ m, m < j → ¬ θ ≤ (acc + energyUpTo l (m + 1)) / total := by
  induction l with
  | nil =>
    intro acc i
    exact Or.inl ⟨rfl, fun j hj => absurd hj (Nat.not_lt_zero j)⟩
  | cons t rest ih =>
    intro acc i
    by_cases h : θ ≤ (acc + normSq t.2) / total
    · right
      refine ⟨0, Nat.succ_pos _, ?_, ?_, ?_⟩
      · simp [thresholdScan, if_pos h]
      · rw [energyUpTo_cons_succ, energyUpTo_zero, add_zero]; exact h
      · intro m hm; exact absurd hm (Nat.not_lt_zero m)
    · have hscan : thresholdScan θ total acc i (t :: rest)
          = thresholdScan θ total (acc + normSq t.2) (i + 1) rest := by
        simp [thresholdScan, if_neg h]
      rcases ih (acc + normSq t.2) (i + 1) with ⟨h0, hall⟩ | ⟨j, hj, heq, hge, hmin⟩
      · left
        refine ⟨by rw [hscan]; exact h0, ?_⟩
        intro j hj
        cases j with
        | zero => rw [energyUpTo_cons_succ, energyUpTo_zero, add_zero]; exact h
        | succ j =>
          have hj2 : j < rest.length := by simpa using hj
          have := hall j hj2
          rw [energyUpTo_cons_succ, ← add_assoc]
          exact this
      · right
        refine ⟨j + 1, by simpa using hj, ?_, ?_, ?_⟩
        · rw [hscan, heq]; omega
        · rw [energyUpTo_cons_succ, ← add_assoc]; exact hge
        · intro m hm
          cases m with
          | zero => rw [energyUpTo_cons_succ, energyUpTo_zero, add_zero]; exact h
          | succ m =>
            rw [energyUpTo_cons_succ, ← add_assoc]
            exact hmin m (by omega)

lemma preClampCount_spec {K : Type} [LinearOrderedField K] (θ : K)
    (coeffs : List (EpiTerm K)) :
    (preClampCount θ coeffs = (sortItems coeffs).length
      ∧ ∀ n, 1 ≤ n → n ≤ (sortItems coeffs).length → ¬ reachedAt θ coeffs n)
    ∨ (1 ≤ preClampCount θ coeffs
      ∧ preClampCount θ coeffs ≤ (sortItems coeffs).length
      ∧ reachedAt θ coeffs (preClampCount θ coeffs)
      ∧ ∀ m, 1 ≤ m → m < preClampCount θ coeffs → ¬ reachedAt θ coeffs m) := by
  rcases thresholdScan_spec θ (totalEnergy (sortItems coeffs)) (sortItems coeffs) 0 0
    with ⟨h0, hall⟩ | ⟨j, hj, heq, hge, hmin⟩
  · left
    refine ⟨by rw [preClampCount, if_pos h0], ?_⟩
    intro n h1 hn
    obtain ⟨j, rfl⟩ : ∃ j, n = j + 1 := ⟨n - 1, by omega⟩
    have := hall j (by omega)
    simpa [reachedAt, zero_add] using this
  · right
    have hne : thresholdScan θ (totalEnergy (sortItems coeffs)) 0 0 (sortItems coeffs)
        = j + 1 := by simpa using heq
    have hkey : preClampCount θ coeffs = j + 1 := by
      rw [preClampCount, if_neg (by rw [hne]; omega), hne]
    rw [hkey]
    refine ⟨by omega, by omega, ?_, ?_⟩
    · simpa [reachedAt, zero_add] using hge
    · intro m h1 hm
      obtain ⟨m, rfl⟩ : ∃ k, m = k + 1 := ⟨m - 1, by omega⟩
      have := hmin m (by omega)
      simpa [reachedAt, zero_add] using this

lemma preClampCount_le {K : Type} [LinearOrderedField K] (θ : K)
    (coeffs : List (EpiTerm K)) :
    preClampCount θ coeffs ≤ (sortItems coeffs).length := by
  rcases preClampCount_spec θ coeffs with ⟨heq, _⟩ | ⟨_, hle, _, _⟩
  · exact le_of_eq heq
  · exact hle

lemma sortItems_length {K : Type} [LinearOrderedField K] (coeffs : List (EpiTerm K)) :
    (sortItems coeffs).length = coeffs.length :=
  (List.perm_insertionSort magGE coeffs).length_eq

lemma find_eq_none_iff {K : Type} [LinearOrderedField K] (cfg : EpiConfig K)
    (coeffs : List (EpiTerm K)) :
    find_optimal_epicycles cfg coeffs = none ↔ coeffs.length < cfg.min_epicycles := by
  have hk0 := preClampCount_le cfg.energy_threshold coeffs
  rw [find_optimal_epicycles]
  split_ifs with h
  · have hmin_le : cfg.min_epicycles ≤ coeffs.length := by
      have := le_trans (le_max_left _ _) h
      rwa [sortItems_length] at this
    simp [not_lt.mpr hmin_le]
  · have h2 : min (preClampCount cfg.energy_threshold coeffs) cfg.max_epicycles
        ≤ coeffs.length := by
      have h3 : min (preClampCount cfg.energy_threshold coeffs) cfg.max_epicycles
          ≤ (sortItems coeffs).length := le_trans (min_le_left _ _) hk0
      rwa [sortItems_length] at h3
    rw [sortItems_length] at h
    have hlt : coeffs.length < cfg.min_epicycles := by omega
    simp [hlt]

/-! ## C10 — PathSampler target arc lengths -/

lemma mem_sampleTargets_iff (M : ℕ) (L a : ℚ) :
    a ∈ sampleTargets M L ↔ ∃ i : ℕ, i < M ∧ a = ((i : ℚ) / (M : ℚ)) * L := by
  unfold sampleTargets
  rw [List.mem_map]
  constructor
  · rintro ⟨i, hi, h⟩
    exact ⟨i, List.mem_range.mp hi, h.symm⟩
  · rintro ⟨i, hi, h⟩
    exact ⟨i, List.mem_range.mpr hi, h.symm⟩

/-- C10 (amended): for every path segment, the sampler produces exactly
`samples_per_path` points; the target arc lengths are `(i/M)·L` for
`i = 0, ..., M-1` and nothing else; and for a segment of nonzero arc
length, `L` itself is never a sampling target, so an open segment's far
endpoint is not among the sampled targets.  (As stated, the claim fails
on a degenerate segment with `L = 0`, where every target equals `L`.) -/
theorem c10_sampler (M : ℕ) (L : ℚ) (il : ℚ → Option ℚ) (pt : ℚ → Point) :
    (samplePath M L il pt).length = M
    ∧ (∀ a : ℚ, a ∈ sampleTargets M L ↔ ∃ i, i < M ∧ a = ((i : ℚ) / (M : ℚ)) * L)
    ∧ (0 < L → L ∉ sampleTargets M L) := by
  refine ⟨?_, fun a => mem_sampleTargets_iff M L a, ?_⟩
  · unfold samplePath
    rw [List.length_map, List.length_range]
  · intro hL hmem
    obtain ⟨i, hi, hieq⟩ := (mem_sampleTargets_iff M L L).mp hmem
    have hMpos : 0 < M := lt_of_le_of_lt (Nat.zero_le i) hi
    have hM : (M : ℚ) ≠ 0 := by exact_mod_cast hMpos.ne'
    have h1 : ((i : ℚ) / (M : ℚ)) * L = 1 * L := by rw [one_mul]; exact hieq.symm
    have h2 : (i : ℚ) / (M : ℚ) = 1 := mul_right_cancel₀ (ne_of_gt hL) h1
    have h3 : (i : ℚ) = (M : ℚ) := by
      rw [div_eq_one_iff_eq hM] at h2; exact h2
    have h4 : i = M := by exact_mod_cast h3
    omega

/-- Witness for C10 at `M = 2`, `L = 1`. -/
theorem c10_sampler_witness :
    (0 : ℚ) < 1
    ∧ (samplePath 2 1 (fun _ => none) (fun _ => ((0 : ℚ), (0 : ℚ)))).length = 2
    ∧ (1 : ℚ) ∉ sampleTargets 2 1 :=
  ⟨by norm_num, (c10_sampler 2 1 (fun _ => none) (fun _ => ((0 : ℚ), (0 : ℚ)))).1,
    (c10_sampler 2 1 (fun _ => none) (fun _ => ((0 : ℚ), (0 : ℚ)))).2.2 (by norm_num)⟩

/-- Counterexample to C10 as stated: for a degenerate segment of arc
length `L = 0` (with `M = 2` samples), the arc length `L` itself is a
sampling target. -/
theorem c10_counterexample : (0 : ℚ) ∈ sampleTargets 2 0 := by
  rw [mem_sampleTargets_iff]
  exact ⟨0, by norm_num, by norm_num⟩

/-! ## C4 — Normalizer scaling -/

/-- C4: after closing and centering, a traversal of nonzero extent is
scaled so that its maximum absolute coordinate component equals the
configured scale factor; a zero-extent traversal is left unscaled. -/
theorem c4_normalizer (pts : List Point) (s : ℚ) (hs : 0 ≤ s) :
    (maxAbsComp (centerPts (closeStep pts)) ≠ 0 →
      maxAbsComp (normalizeTraversal s pts) = s)
    ∧ (maxAbsComp (centerPts (closeStep pts)) = 0 →
      normalizeTraversal s pts = centerPts (closeStep pts)) := by
  constructor
  · intro hne
    have hpos : 0 < maxAbsComp (centerPts (closeStep pts)) :=
      lt_of_le_of_ne (maxAbsComp_nonneg _) (Ne.symm hne)
    have hmap : (fun p : Point => (p.1 / maxAbsComp (centerPts (closeStep pts)) * s,
          p.2 / maxAbsComp (centerPts (closeStep pts)) * s))
        = fun p : Point => (p.1 * (s / maxAbsComp (centerPts (closeStep pts))),
          p.2 * (s / maxAbsComp (centerPts (closeStep pts)))) := by
      funext p
      rw [Prod.mk.injEq]
      constructor <;> ring
    rw [normalizeTraversal, scaleStep, if_pos hpos, hmap,
      maxAbsComp_map_mul _ _ (div_nonneg hs (le_of_lt hpos)), mul_comm,
      div_mul_cancel₀ _ hne]
  · intro h0
    rw [normalizeTraversal, scaleStep, if_neg]
    rw [h0]
    exact lt_irrefl 0

/-- Witness for C4 on the sample traversal `ptsW` with scale factor 8. -/
theorem c4_normalizer_witness :
    (0 : ℚ) ≤ 8
    ∧ maxAbsComp (centerPts (closeStep ptsW)) ≠ 0
    ∧ maxAbsComp (normalizeTraversal 8 ptsW) = 8 :=
  ⟨by norm_num,
    by norm_num [ptsW, closeStep, centerPts, meanPoint, maxAbsComp, absComp, sqDist,
      tolSq, headD, lastD, abs_of_nonneg, abs_of_nonpos],
    (c4_normalizer ptsW 8 (by norm_num)).1
      (by norm_num [ptsW, closeStep, centerPts, meanPoint, maxAbsComp, absComp, sqDist,
        tolSq, headD, lastD, abs_of_nonneg, abs_of_nonpos])⟩

/-! ## C2, C6, C9 — FourierAnalyzer selection -/

/-- C2: under the precondition that `min_epicycles` does not exceed the
number of DFT terms (otherwise the recomputation raises, claim C9),
`find_optimal_epicycles` returns `K = max(min_epicycles, min(K₀,
max_epicycles))` where `K₀` is the smallest prefix length of the
magnitude-descending sorted list whose cumulative energy ratio reaches
the threshold (`K₀ = N` when the threshold is never reached), together
with exactly the first `K` sorted pairs (so exactly `K` terms) and the
energy ratio recomputed over those `K` terms. -/
theorem c2_selection (cfg : EpiConfig ℚ) (coeffs : List (EpiTerm ℚ))
    (hmin : cfg.min_epicycles ≤ coeffs.length) :
    ∃ k items frac,
      find_optimal_epicycles cfg coeffs = some (k, items, frac)
      ∧ k = max cfg.min_epicycles
          (min (preClampCount cfg.energy_threshold coeffs) cfg.max_epicycles)
      ∧ items = (sortItems coeffs).take k
      ∧ items.length = k
      ∧ List.Sorted magGE (sortItems coeffs)
      ∧ (sortItems coeffs).Perm coeffs
      ∧ frac = energyUpTo (sortItems coeffs) k / totalEnergy (sortItems coeffs)
      ∧ ((preClampCount cfg.energy_threshold coeffs = coeffs.length
            ∧ ∀ n, 1 ≤ n → n ≤ coeffs.length
              → ¬ reachedAt cfg.energy_threshold coeffs n)
          ∨ (1 ≤ preClampCount cfg.energy_threshold coeffs
            ∧ preClampCount cfg.energy_threshold coeffs ≤ coeffs.length
            ∧ reachedAt cfg.energy_threshold coeffs
                (preClampCount cfg.energy_threshold coeffs)
            ∧ ∀ m, 1 ≤ m → m < preClampCount cfg.energy_threshold coeffs
                → ¬ reachedAt cfg.energy_threshold coeffs m)) := by
  have hk0 := preClampCount_le cfg.energy_threshold coeffs
  have hsl := sortItems_length (K := ℚ) coeffs
  have hk : max cfg.min_epicycles
      (min (preClampCount cfg.energy_threshold coeffs) cfg.max_epicycles)
      ≤ (sortItems coeffs).length := by
    apply max_le
    · rw [hsl]; exact hmin
    · exact le_trans (min_le_left _ _) hk0
  refine ⟨_, _, _, ?_, rfl, rfl, ?_, ?_, ?_, rfl, ?_⟩
  · rw [find_optimal_epicycles, if_pos hk]
  · rw [List.length_take]
    exact Nat.min_eq_left hk
  · exact List.sorted_insertionSort magGE coeffs
  · exact List.perm_insertionSort magGE coeffs
  · have := preClampCount_spec cfg.energy_threshold coeffs
    rwa [hsl] at this

/-- Witness for C2 on the sample configuration and coefficient list. -/
theorem c2_selection_witness :
    cfgW.min_epicycles ≤ coeffsW.length
    ∧ ∃ k items frac,
      find_optimal_epicycles cfgW coeffsW = some (k, items, frac)
      ∧ k = max cfgW.min_epicycles
          (min (preClampCount cfgW.energy_threshold coeffsW) cfgW.max_epicycles)
      ∧ items = (sortItems coeffsW).take k
      ∧ items.length = k
      ∧ List.Sorted magGE (sortItems coeffsW)
      ∧ (sortItems coeffsW).Perm coeffsW
      ∧ frac = energyUpTo (sortItems coeffsW) k / totalEnergy (sortItems coeffsW)
      ∧ ((preClampCount cfgW.energy_threshold coeffsW = coeffsW.length
            ∧ ∀ n, 1 ≤ n → n ≤ coeffsW.length
              → ¬ reachedAt cfgW.energy_threshold coeffsW n)
          ∨ (1 ≤ preClampCount cfgW.energy_threshold coeffsW
            ∧ preClampCount cfgW.energy_threshold coeffsW ≤ coeffsW.length
            ∧ reachedAt cfgW.energy_threshold coeffsW
                (preClampCount cfgW.energy_threshold coeffsW)
            ∧ ∀ m, 1 ≤ m → m < preClampCount cfgW.energy_threshold coeffsW
                → ¬ reachedAt cfgW.energy_threshold coeffsW m)) :=
  ⟨by norm_num [cfgW, coeffsW], c2_selection cfgW coeffsW (by norm_num [cfgW, coeffsW])⟩

/-- C6: for a fixed coefficient set, the pre-clamp term count chosen by
the threshold scan is monotone non-decreasing in the energy threshold. -/
theorem c6_threshold_monotone (coeffs : List (EpiTerm ℚ)) (θ₁ θ₂ : ℚ) (h : θ₁ ≤ θ₂) :
    preClampCount θ₁ coeffs ≤ preClampCount θ₂ coeffs := by
  rcases preClampCount_spec θ₂ coeffs with ⟨heq, _⟩ | ⟨h1, hle, hreach, _⟩
  · rw [heq]; exact preClampCount_le θ₁ coeffs
  · have hreach1 : reachedAt θ₁ coeffs (preClampCount θ₂ coeffs) := by
      simp only [reachedAt] at hreach ⊢
      exact le_trans h hreach
    rcases preClampCount_spec θ₁ coeffs with ⟨_, hall1⟩ | ⟨_, _, _, hmin1⟩
    · exact absurd hreach1 (hall1 _ h1 hle)
    · by_contra hlt
      push_neg at hlt
      exact absurd hreach1 (hmin1 _ h1 hlt)

/-- Witness for C6 on the sample coefficient list. -/
theorem c6_threshold_monotone_witness :
    (1 : ℚ) / 4 ≤ 1 / 2
    ∧ preClampCount ((1 : ℚ) / 4) coeffsW ≤ preClampCount ((1 : ℚ) / 2) coeffsW :=
  ⟨by norm_num, c6_threshold_monotone coeffsW (1 / 4) (1 / 2) (by norm_num)⟩

/-- C9: the final energy recomputation of `find_optimal_epicycles`
indexes the sorted term list at positions up to the clamped count, which
is in bounds exactly when `min_epicycles` does not exceed the number `N`
of DFT terms; when `min_epicycles > N` the function raises `IndexError`
(modelled by `none`). -/
theorem c9_min_bound (cfg : EpiConfig ℚ) (coeffs : List (EpiTerm ℚ)) :
    find_optimal_epicycles cfg coeffs = none ↔ coeffs.length < cfg.min_epicycles :=
  find_eq_none_iff cfg coeffs

/-! ## C1, C8 — ContourStitcher -/

lemma sqDist_nonneg (p q : Point) : 0 ≤ sqDist p q :=
  add_nonneg (sq_nonneg _) (sq_nonneg _)

lemma improves_none (d : ℚ) : improves d none := True.intro

lemma improves_some_iff (d : ℚ) (v : List Point × ℚ × Bool) :
    improves d (some v) ↔ d < v.2.1 := Iff.rfl

lemma stepBest_isSome (pos : Point) (st : Option (List Point × ℚ × Bool))
    (c : List Point) : (stepBest pos st c).isSome := by
  simp only [stepBest]
  cases st with
  | none =>
    rw [if_pos (improves_none _)]
    split_ifs <;> simp
  | some v =>
    split_ifs <;> simp

lemma foldl_stepBest_isSome (pos : Point) (l : List (List Point))
    (st : Option (List Point × ℚ × Bool)) (h : st.isSome) :
    (l.foldl (stepBest pos) st).isSome := by
  induction l generalizing st with
  | nil => exact h
  | cons c t ih => exact ih _ (stepBest_isSome pos st c)

lemma pickBest_isSome (pos : Point) (rem : List (List Point)) (hne : rem ≠ []) :
    (pickBest pos rem).isSome := by
  cases rem with
  | nil => exact absurd rfl hne
  | cons c t =>
    unfold pickBest
    rw [List.foldl_cons]
    exact foldl_stepBest_isSome pos t _ (stepBest_isSome pos none c)

lemma stepBest_eq_or (pos : Point) (st : Option (List Point × ℚ × Bool))
    (c : List Point) :
    stepBest pos st c = st ∨ ∃ d r, stepBest pos st c = some (c, d, r) := by
  simp only [stepBest]
  split_ifs
  · exact Or.inr ⟨_, _, rfl⟩
  · exact Or.inr ⟨_, _, rfl⟩
  · exact Or.inr ⟨_, _, rfl⟩
  · exact Or.inl rfl

lemma foldl_stepBest_result (pos : Point) :
    ∀ (l : List (List Point)) (st : Option (List Point × ℚ × Bool))
      (v : List Point × ℚ × Bool), l.foldl (stepBest pos) st = some v →
      st = some v ∨ v.1 ∈ l := by
  intro l
  induction l with
  | nil => intro st v h; exact Or.inl h
  | cons c t ih =>
    intro st v h
    rw [List.foldl_cons] at h
    rcases ih _ v h with hst | hmem
    · rcases stepBest_eq_or pos st c with heq | ⟨d, r, heq⟩
      · left; rw [← heq]; exact hst
      · right
        rw [heq] at hst
        have hv := Option.some.inj hst
        rw [← hv]
        exact List.mem_cons_self c t
    · exact Or.inr (List.mem_cons_of_mem c hmem)

lemma pickBest_mem (pos : Point) (rem : List (List Point))
    (v : List Point × ℚ × Bool) (h : pickBest pos rem = some v) : v.1 ∈ rem := by
  rcases foldl_stepBest_result pos rem none v h with h0 | hm
  · exact absurd h0 (by simp)
  · exact hm

lemma stepBest_inv (pos : Point) (visited : List (List Point))
    (st : Option (List Point × ℚ × Bool)) (c : List Point) (h : BestInv pos visited st) :
    BestInv pos (visited ++ [c]) (stepBest pos st c) := by
  cases st with
  | none =>
    have hvis : visited = [] := h
    subst hvis
    simp only [stepBest]
    rw [if_pos (improves_none _)]
    by_cases hB : sqDist pos (lastD (0, 0) c) < sqDist pos (headD (0, 0) c)
    · rw [if_pos ((improves_some_iff (sqDist pos (lastD (0, 0) c))
        (c, sqDist pos (headD (0, 0) c), false)).mpr hB)]
      refine ⟨by simp, by simp, iff_of_true rfl hB, ?_⟩
      intro x hx
      have hxc : x = c := by simpa using hx
      subst hxc
      exact ⟨le_of_lt hB, le_refl _⟩
    · have hB2 : ¬ improves (sqDist pos (lastD (0, 0) c))
          (some (c, sqDist pos (headD (0, 0) c), false)) := by
        rw [improves_some_iff]; exact hB
      rw [if_neg hB2]
      refine ⟨by simp, by simp, iff_of_false (by simp) hB, ?_⟩
      intro x hx
      have hxc : x = c := by simpa using hx
      subst hxc
      exact ⟨le_refl _, not_lt.mp hB⟩
  | some v =>
    obtain ⟨b, d, r⟩ := v
    obtain ⟨h1, h2, h3, h4⟩ := h
    simp only [stepBest]
    by_cases hA : sqDist pos (headD (0, 0) c) < d
    · rw [if_pos ((improves_some_iff (sqDist pos (headD (0, 0) c)) (b, d, r)).mpr hA)]
      by_cases hB : sqDist pos (lastD (0, 0) c) < sqDist pos (headD (0, 0) c)
      · rw [if_pos ((improves_some_iff (sqDist pos (lastD (0, 0) c))
          (c, sqDist pos (headD (0, 0) c), false)).mpr hB)]
        refine ⟨by simp, by simp, iff_of_true rfl hB, ?_⟩
        intro x hx
        rcases List.mem_append.mp hx with hx | hx
        · have h5 := h4 x hx
          have h6 : sqDist pos (lastD (0, 0) c) < d := lt_trans hB hA
          exact ⟨le_trans (le_of_lt h6) h5.1, le_trans (le_of_lt h6) h5.2⟩
        · have hxc : x = c := by simpa using hx
          subst hxc
          exact ⟨le_of_lt hB, le_refl _⟩
      · have hB2 : ¬ improves (sqDist pos (lastD (0, 0) c))
            (some (c, sqDist pos (headD (0, 0) c), false)) := by
          rw [improves_some_iff]; exact hB
        rw [if_neg hB2]
        refine ⟨by simp, by simp, iff_of_false (by simp) hB, ?_⟩
        intro x hx
        rcases List.mem_append.mp hx with hx | hx
        · have h5 := h4 x hx
          exact ⟨le_trans (le_of_lt hA) h5.1, le_trans (le_of_lt hA) h5.2⟩
        · have hxc : x = c := by simpa using hx
          subst hxc
          exact ⟨le_refl _, not_lt.mp hB⟩
    · have hA2 : ¬ improves (sqDist pos (headD (0, 0) c)) (some (b, d, r)) := by
        rw [improves_some_iff]; exact hA
      rw [if_neg hA2]
      by_cases hB : sqDist pos (lastD (0, 0) c) < d
      · rw [if_pos ((improves_some_iff (sqDist pos (lastD (0, 0) c)) (b, d, r)).mpr hB)]
        have hBA : sqDist pos (lastD (0, 0) c) < sqDist pos (headD (0, 0) c) :=
          lt_of_lt_of_le hB (not_lt.mp hA)
        refine ⟨by simp, by simp, iff_of_true rfl hBA, ?_⟩
        intro x hx
        rcases List.mem_append.mp hx with hx | hx
        · have h5 := h4 x hx
          exact ⟨le_trans (le_of_lt hB) h5.1, le_trans (le_of_lt hB) h5.2⟩
        · have hxc : x = c := by simpa using hx
          subst hxc
          exact ⟨le_of_lt hBA, le_refl _⟩
      · have hB2 : ¬ improves (sqDist pos (lastD (0, 0) c)) (some (b, d, r)) := by
          rw [improves_some_iff]; exact hB
        rw [if_neg hB2]
        refine ⟨List.mem_append_left _ h1, h2, h3, ?_⟩
        intro x hx
        rcases List.mem_append.mp hx with hx | hx
        · exact h4 x hx
        · have hxc : x = c := by simpa using hx
          subst hxc
          exact ⟨not_lt.mp hA, not_lt.mp hB⟩

lemma foldl_stepBest_inv (pos : Point) :
    ∀ (l vis : List (List Point)) (st : Option (List Point × ℚ × Bool)),
      BestInv pos vis st → BestInv pos (vis ++ l) (l.foldl (stepBest pos) st) := by
  intro l
  induction l with
  | nil => intro vis st h; simpa using h
  | cons c t ih =>
    intro vis st h
    rw [List.foldl_cons]
    have h3 := ih (vis ++ [c]) _ (stepBest_inv pos vis st c h)
    rwa [List.append_assoc, List.singleton_append] at h3

lemma pickBest_inv (pos : Point) (rem : List (List Point)) :
    BestInv pos rem (pickBest pos rem) := by
  have h := foldl_stepBest_inv pos rem [] none rfl
  simpa using h

lemma ne_reverse_comm (x y : List Point) : x ≠ y.reverse ↔ y ≠ x.reverse := by
  constructor <;>
    · intro h heq
      apply h
      rw [heq, List.reverse_reverse]

lemma stitchLoop_succ (fuel : ℕ) (pos : Point) (rem : List (List Point))
    (c : List Point) (d : ℚ) (r : Bool) (h : pickBest pos rem = some (c, d, r)) :
    stitchLoop (fuel + 1) pos rem
      = (if r then c.reverse else c)
        :: stitchLoop fuel (lastD (0, 0) (if r then c.reverse else c))
          (rem.filter fun x => decide (x ≠ (if r then c.reverse else c)
            ∧ x ≠ (if r then c.reverse else c).reverse)) := by
  simp only [stitchLoop, h]

lemma filter_eq_erase (l : List (List Point)) (c b : List Point)
    (hpd : distinctUpToRev l) (hc : c ∈ l) (hb : b = c ∨ b = c.reverse) :
    (l.filter fun x => decide (x ≠ b ∧ x ≠ b.reverse)) = l.erase c := by
  induction l with
  | nil => rfl
  | cons a t ih =>
    rw [distinctUpToRev, List.pairwise_cons] at hpd
    obtain ⟨hhead, htail⟩ := hpd
    by_cases hac : a = c
    · subst hac
      have hdrop : ¬(a ≠ b ∧ a ≠ b.reverse) := by
        rcases hb with rfl | rfl
        · intro hx; exact hx.1 rfl
        · intro hx; exact hx.2 (List.reverse_reverse a).symm
      rw [List.filter_cons_of_neg (by simpa using hdrop), List.erase_cons_head]
      apply List.filter_eq_self.mpr
      intro x hx
      have hx2 := hhead x hx
      simp only [decide_eq_true_eq]
      constructor
      · intro hxb
        rcases hb with rfl | rfl
        · exact hx2.1 hxb.symm
        · apply hx2.2
          rw [hxb, List.reverse_reverse]
      · intro hxbr
        rcases hb with rfl | rfl
        · apply hx2.2
          rw [hxbr, List.reverse_reverse]
        · apply hx2.1
          rw [hxbr, List.reverse_reverse]
    · have hct : c ∈ t := by
        rcases List.mem_cons.mp hc with h0 | h0
        · exact absurd h0.symm hac
        · exact h0
      have hx2 := hhead c hct
      have hkeep : a ≠ b ∧ a ≠ b.reverse := by
        rcases hb with rfl | rfl
        · exact hx2
        · refine ⟨hx2.2, ?_⟩
          rw [List.reverse_reverse]
          exact hx2.1
      rw [List.filter_cons_of_pos (by simpa using hkeep),
        List.erase_cons_tail (by simp [hac])]
      rw [ih htail hct]

lemma perm_cons_erase_contour (c : List Point) (l : List (List Point)) (hc : c ∈ l) :
    l.Perm (c :: l.erase c) := by
  induction l with
  | nil => exact absurd hc (List.not_mem_nil c)
  | cons a t ih =>
    by_cases hac : a = c
    · subst hac
      rw [List.erase_cons_head]
    · have hct : c ∈ t := by
        rcases List.mem_cons.mp hc with h0 | h0
        · exact absurd h0.symm hac
        · exact h0
      rw [List.erase_cons_tail (by simp [hac])]
      exact ((ih hct).cons a).trans (List.Perm.swap c a (t.erase c))

lemma stitchLoop_blocks :
    ∀ (fuel : ℕ) (pos : Point) (rem : List (List Point)), rem.length ≤ fuel →
      distinctUpToRev rem →
      ∃ sel : List (Bool × List Point),
        stitchLoop fuel pos rem = sel.map (fun q => if q.1 then q.2.reverse else q.2)
        ∧ (sel.map Prod.snd).Perm rem := by
  intro fuel
  induction fuel with
  | zero =>
    intro pos rem hlen _
    have hrem : rem = [] := List.length_eq_zero.mp (Nat.le_zero.mp hlen)
    subst hrem
    exact ⟨[], rfl, List.Perm.refl []⟩
  | succ fuel ih =>
    intro pos rem hlen hpd
    cases hpb : pickBest pos rem with
    | none =>
      have hrem : rem = [] := by
        by_contra hne
        have hs := pickBest_isSome pos rem hne
        rw [hpb] at hs
        exact absurd hs (by simp)
      subst hrem
      exact ⟨[], by simp [stitchLoop, pickBest], List.Perm.refl []⟩
    | some v =>
      obtain ⟨c, d, r⟩ := v
      have hc : c ∈ rem := pickBest_mem pos rem (c, d, r) hpb
      have hb : (if r then c.reverse else c) = c ∨ (if r then c.reverse else c) = c.reverse := by
        cases r
        · exact Or.inl rfl
        · exact Or.inr rfl
      have hfe := filter_eq_erase rem c (if r then c.reverse else c) hpd hc hb
      have hlen2 : (rem.erase c).length ≤ fuel := by
        rw [List.length_erase_of_mem hc]
        omega
      have hpd2 : distinctUpToRev (rem.erase c) :=
        List.Pairwise.sublist (List.erase_sublist c rem) hpd
      obtain ⟨sel, hsel, hperm⟩ :=
        ih (lastD (0, 0) (if r then c.reverse else c)) (rem.erase c) hlen2 hpd2
      refine ⟨(r, c) :: sel, ?_, ?_⟩
      · rw [stitchLoop_succ fuel pos rem c d r hpb, hfe, List.map_cons, hsel]
      · rw [List.map_cons]
        exact (hperm.cons c).trans (perm_cons_erase_contour c rem hc).symm

/-- C1 (amended): for a nonempty family of nonempty contours that are
pairwise distinct up to reversal, the stitcher's output traversal has
exactly as many points as all inputs together, and it is the
concatenation of blocks, one per input contour, each being that contour
in original or point-reversed orientation.  (As stated, the claim fails
when two input contours are equal, or reverses of each other: the
removal step then drops both while only one is appended.) -/
theorem c1_stitcher (contours : List (List Point)) (hne : contours ≠ [])
    (hall : ∀ c ∈ contours, c ≠ []) (hpd : distinctUpToRev contours) :
    (connect_contours_tsp contours).length = (contours.map List.length).sum
    ∧ ∃ sel : List (Bool × List Point),
        connect_contours_tsp contours
          = (sel.map fun q => if q.1 then q.2.reverse else q.2).flatten
        ∧ (sel.map Prod.snd).Perm contours := by
  obtain ⟨sel, hsel, hperm⟩ := stitchLoop_blocks contours.length
    (headD (0, 0) (headD [] contours)) contours (le_refl _) hpd
  constructor
  · rw [connect_contours_tsp, hsel, List.length_flatten, List.map_map]
    have h1 : (List.length ∘ fun q : Bool × List Point => if q.1 then q.2.reverse else q.2)
        = fun q : Bool × List Point => q.2.length := by
      funext q
      by_cases hq : q.1 <;> simp [hq]
    rw [h1]
    have h2 := (hperm.map List.length).sum_eq
    rw [List.map_map] at h2
    exact h2
  · exact ⟨sel, by rw [connect_contours_tsp, hsel], hperm⟩

/-- Counterexample to C1 as stated: two identical input contours with
total point count 4.  The removal step drops both copies after appending
only one of them, so the output traversal has 2 points, not 4. -/
theorem c1_counterexample :
    (connect_contours_tsp contoursDup).length ≠ (contoursDup.map List.length).sum := by
  norm_num [contoursDup, connect_contours_tsp, stitchLoop, pickBest, stepBest, improves,
    sqDist, headD, lastD]

/-- Witness for C1 on the two distinct contours of example scenario D. -/
theorem c1_stitcher_witness :
    contoursD ≠ []
    ∧ (∀ c ∈ contoursD, c ≠ [])
    ∧ distinctUpToRev contoursD
    ∧ ((connect_contours_tsp contoursD).length = (contoursD.map List.length).sum
      ∧ ∃ sel : List (Bool × List Point),
          connect_contours_tsp contoursD
            = (sel.map fun q => if q.1 then q.2.reverse else q.2).flatten
          ∧ (sel.map Prod.snd).Perm contoursD) :=
  ⟨by simp [contoursD], by simp [contoursD], by norm_num [contoursD, distinctUpToRev],
    c1_stitcher contoursD (by simp [contoursD]) (by simp [contoursD])
      (by norm_num [contoursD, distinctUpToRev])⟩

/-- C8: one iteration of the stitching loop.  `pickBest` returns a
not-yet-used contour one of whose endpoints is at minimal distance
(squared distances and genuine Euclidean distances order identically) to
the current position among all remaining contours; the reverse flag is
set exactly when the contour's end point is strictly nearer than its
start point; the loop then appends the (possibly reversed) contour and
continues from its last point with the chosen contour removed; and the
whole traversal starts at the first point of the first contour. -/
theorem c8_greedy_step (pos : Point) (rem : List (List Point)) (fuel : ℕ)
    (hne : rem ≠ []) :
    ∃ c d r, pickBest pos rem = some (c, d, r)
    ∧ c ∈ rem
    ∧ d = (if r then sqDist pos (lastD (0, 0) c) else sqDist pos (headD (0, 0) c))
    ∧ (∀ x ∈ rem, d ≤ sqDist pos (headD (0, 0) x) ∧ d ≤ sqDist pos (lastD (0, 0) x))
    ∧ (r = true ↔ sqDist pos (lastD (0, 0) c) < sqDist pos (headD (0, 0) c))
    ∧ (∀ x ∈ rem,
        euclDist pos (if r then lastD (0, 0) c else headD (0, 0) c)
            ≤ euclDist pos (headD (0, 0) x)
        ∧ euclDist pos (if r then lastD (0, 0) c else headD (0, 0) c)
            ≤ euclDist pos (lastD (0, 0) x))
    ∧ (r = true ↔ euclDist pos (lastD (0, 0) c) < euclDist pos (headD (0, 0) c))
    ∧ stitchLoop (fuel + 1) pos rem
        = (if r then c.reverse else c)
          :: stitchLoop fuel (lastD (0, 0) (if r then c.reverse else c))
            (rem.filter fun x => decide (x ≠ (if r then c.reverse else c)
              ∧ x ≠ (if r then c.reverse else c).reverse))
    ∧ (∀ cs : List (List Point), connect_contours_tsp cs
        = (stitchLoop cs.length (headD (0, 0) (headD [] cs)) cs).flatten) := by
  obtain ⟨v, hv⟩ := Option.isSome_iff_exists.mp (pickBest_isSome pos rem hne)
  obtain ⟨c, d, r⟩ := v
  have hinv := pickBest_inv pos rem
  rw [hv] at hinv
  obtain ⟨hmem, hdeq, hiff, hmin⟩ := hinv
  have heucl : ∀ x ∈ rem,
      euclDist pos (if r then lastD (0, 0) c else headD (0, 0) c)
          ≤ euclDist pos (headD (0, 0) x)
      ∧ euclDist pos (if r then lastD (0, 0) c else headD (0, 0) c)
          ≤ euclDist pos (lastD (0, 0) x) := by
    intro x hx
    have hd2 : d = if r = true then sqDist pos (lastD (0, 0) c)
        else sqDist pos (headD (0, 0) c) := hdeq
    have hdx : euclDist pos (if r then lastD (0, 0) c else headD (0, 0) c)
        = Real.sqrt ((d : ℚ) : ℝ) := by
      cases r
      · simp only [Bool.false_eq_true, if_false] at hd2 ⊢
        unfold euclDist
        rw [hd2]
      · simp only [if_true] at hd2 ⊢
        unfold euclDist
        rw [hd2]
    rw [hdx]
    unfold euclDist
    constructor
    · exact Real.sqrt_le_sqrt (by exact_mod_cast (hmin x hx).1)
    · exact Real.sqrt_le_sqrt (by exact_mod_cast (hmin x hx).2)
  have hiff2 : r = true ↔ sqDist pos (lastD (0, 0) c) < sqDist pos (headD (0, 0) c) :=
    hiff
  have heucliff : (r = true
      ↔ euclDist pos (lastD (0, 0) c) < euclDist pos (headD (0, 0) c)) := by
    rw [hiff2]
    unfold euclDist
    rw [Real.sqrt_lt_sqrt_iff (by exact_mod_cast sqDist_nonneg pos (lastD (0, 0) c))]
    constructor
    · intro h; exact_mod_cast h
    · intro h; exact_mod_cast h
  exact ⟨c, d, r, hv, hmem, hdeq, hmin, hiff, heucl, heucliff,
    stitchLoop_succ fuel pos rem c d r hv, fun cs => rfl⟩

/-- Witness for C8: a single remaining contour from the current position
`(1, 0)`, as in example scenario D after the first block. -/
theorem c8_greedy_step_witness :
    [[((5 : ℚ), (5 : ℚ)), ((6 : ℚ), (5 : ℚ))]] ≠ ([] : List (List Point))
    ∧ ∃ c d r,
      pickBest ((1 : ℚ), (0 : ℚ)) [[((5 : ℚ), (5 : ℚ)), ((6 : ℚ), (5 : ℚ))]]
        = some (c, d, r)
      ∧ c ∈ [[((5 : ℚ), (5 : ℚ)), ((6 : ℚ), (5 : ℚ))]]
      ∧ d = (if r then sqDist ((1 : ℚ), (0 : ℚ)) (lastD (0, 0) c)
          else sqDist ((1 : ℚ), (0 : ℚ)) (headD (0, 0) c))
      ∧ (∀ x ∈ [[((5 : ℚ), (5 : ℚ)), ((6 : ℚ), (5 : ℚ))]],
          d ≤ sqDist ((1 : ℚ), (0 : ℚ)) (headD (0, 0) x)
          ∧ d ≤ sqDist ((1 : ℚ), (0 : ℚ)) (lastD (0, 0) x))
      ∧ (r = true ↔ sqDist ((1 : ℚ), (0 : ℚ)) (lastD (0, 0) c)
          < sqDist ((1 : ℚ), (0 : ℚ)) (headD (0, 0) c))
      ∧ (∀ x ∈ [[((5 : ℚ), (5 : ℚ)), ((6 : ℚ), (5 : ℚ))]],
          euclDist ((1 : ℚ), (0 : ℚ)) (if r then lastD (0, 0) c else headD (0, 0) c)
              ≤ euclDist ((1 : ℚ), (0 : ℚ)) (headD (0, 0) x)
          ∧ euclDist ((1 : ℚ), (0 : ℚ)) (if r then lastD (0, 0) c else headD (0, 0) c)
              ≤ euclDist ((1 : ℚ), (0 : ℚ)) (lastD (0, 0) x))
      ∧ (r = true ↔ euclDist ((1 : ℚ), (0 : ℚ)) (lastD (0, 0) c)
          < euclDist ((1 : ℚ), (0 : ℚ)) (headD (0, 0) c))
      ∧ stitchLoop (1 + 1) ((1 : ℚ), (0 : ℚ)) [[((5 : ℚ), (5 : ℚ)), ((6 : ℚ), (5 : ℚ))]]
          = (if r then c.reverse else c)
            :: stitchLoop 1 (lastD (0, 0) (if r then c.reverse else c))
              ([[((5 : ℚ), (5 : ℚ)), ((6 : ℚ), (5 : ℚ))]].filter
                fun x => decide (x ≠ (if r then c.reverse else c)
                  ∧ x ≠ (if r then c.reverse else c).reverse))
      ∧ (∀ cs : List (List Point), connect_contours_tsp cs
          = (stitchLoop cs.length (headD (0, 0) (headD [] cs)) cs).flatten) :=
  ⟨by simp,
    c8_greedy_step ((1 : ℚ), (0 : ℚ)) [[((5 : ℚ), (5 : ℚ)), ((6 : ℚ), (5 : ℚ))]] 1
      (by simp)⟩

/-! ## C3, C5 — AnimationPrecomputer -/

lemma chainAux_length (t : ℝ) :
    ∀ (l : List (ℤ × ℂ)) (cz : ℂ) (pp : Vec3),
      (chainAux t cz pp l).1.length = l.length
      ∧ (chainAux t cz pp l).2.1.length = l.length := by
  intro l
  induction l with
  | nil => intro cz pp; exact ⟨rfl, rfl⟩
  | cons p rest ih =>
    intro cz pp
    simp only [chainAux, List.length_cons]
    exact ⟨by rw [(ih _ _).1], by rw [(ih _ _).2]⟩

lemma chainAux_final (t : ℝ) :
    ∀ (l : List (ℤ × ℂ)) (cz : ℂ) (pp : Vec3),
      (chainAux t cz pp l).2.2 = penFrom t cz l := by
  intro l
  induction l with
  | nil => intro cz pp; rfl
  | cons p rest ih =>
    intro cz pp
    show (chainAux t (cz + p.2 * epiRot p.1 t) (toVec3 (cz + p.2 * epiRot p.1 t)) rest).2.2
      = penFrom t cz (p :: rest)
    rw [ih]
    rfl

lemma chainAux_center_eq_start (t : ℝ) :
    ∀ (l : List (ℤ × ℂ)) (cz : ℂ) (pp : Vec3) (i : ℕ), i < l.length →
      ((chainAux t cz pp l).1.getD i cdef).center
        = ((chainAux t cz pp l).2.1.getD i vdef).start := by
  intro l
  induction l with
  | nil => intro cz pp i hi; exact absurd hi (Nat.not_lt_zero i)
  | cons p rest ih =>
    intro cz pp i hi
    cases i with
    | zero => rfl
    | succ i =>
      simp only [chainAux, List.getD_cons_succ]
      exact ih _ _ i (by simpa using hi)

lemma chainAux_start_head (t : ℝ) :
    ∀ (l : List (ℤ × ℂ)) (cz : ℂ) (pp : Vec3), l ≠ [] →
      ((chainAux t cz pp l).2.1.getD 0 vdef).start = pp := by
  intro l
  cases l with
  | nil => intro cz pp h; exact absurd rfl h
  | cons p rest => intro cz pp _; rfl

lemma chainAux_chain (t : ℝ) :
    ∀ (l : List (ℤ × ℂ)) (cz : ℂ) (pp : Vec3) (i : ℕ), i + 1 < l.length →
      ((chainAux t cz pp l).2.1.getD i vdef).stop
        = ((chainAux t cz pp l).2.1.getD (i + 1) vdef).start := by
  intro l
  induction l with
  | nil => intro cz pp i hi; exact absurd hi (Nat.not_lt_zero _)
  | cons p rest ih =>
    intro cz pp i hi
    cases i with
    | zero =>
      have hrest : rest ≠ [] := by
        intro h
        rw [h] at hi
        simp at hi
      simp only [chainAux, List.getD_cons_zero, List.getD_cons_succ]
      exact (chainAux_start_head t rest _ _ hrest).symm
    | succ i =>
      simp only [chainAux, List.getD_cons_succ]
      exact ih _ _ i (by simpa using hi)

lemma chainAux_last_stop (t : ℝ) :
    ∀ (l : List (ℤ × ℂ)) (cz : ℂ) (pp : Vec3), l ≠ [] →
      ((chainAux t cz pp l).2.1.getD (l.length - 1) vdef).stop
        = toVec3 ((chainAux t cz pp l).2.2) := by
  intro l
  induction l with
  | nil => intro cz pp h; exact absurd rfl h
  | cons p rest ih =>
    intro cz pp _
    cases hr : rest with
    | nil =>
      subst hr
      rfl
    | cons q rs =>
      subst hr
      have h1 : (p :: q :: rs).length - 1 = rs.length + 1 := rfl
      rw [h1]
      simp only [chainAux, List.getD_cons_succ]
      have h2 := ih (cz + p.2 * epiRot p.1 t) (toVec3 (cz + p.2 * epiRot p.1 t))
        (by simp)
      have h3 : (q :: rs).length - 1 = rs.length := rfl
      rw [h3] at h2
      exact h2

/-- C3: for every frame, the chained vector endpoints compose: lists have
one entry per term, `vectors[0].start` is the origin, every circle is
centered at its vector's start, consecutive vectors chain (and the next
circle sits at the junction), and the final vector ends at the frame's
pen position, the chain's running sum being literally the same fold that
computes the pen position. -/
theorem c3_frames (terms : List (ℤ × ℂ)) (t : ℝ) :
    (frameChain terms t).1.length = terms.length
    ∧ (frameChain terms t).2.1.length = terms.length
    ∧ (0 < terms.length → ((frameChain terms t).2.1.getD 0 vdef).start = ⟨0, 0, 0⟩)
    ∧ (∀ i, i < terms.length →
        ((frameChain terms t).1.getD i cdef).center
          = ((frameChain terms t).2.1.getD i vdef).start)
    ∧ (∀ i, i + 1 < terms.length →
        ((frameChain terms t).2.1.getD i vdef).stop
            = ((frameChain terms t).2.1.getD (i + 1) vdef).start
        ∧ ((frameChain terms t).2.1.getD i vdef).stop
            = ((frameChain terms t).1.getD (i + 1) cdef).center)
    ∧ (frameChain terms t).2.2 = penPoint terms t
    ∧ (0 < terms.length →
        ((frameChain terms t).2.1.getD (terms.length - 1) vdef).stop
          = toVec3 (penPoint terms t)) := by
  unfold frameChain
  refine ⟨(chainAux_length t terms 0 ⟨0, 0, 0⟩).1, (chainAux_length t terms 0 ⟨0, 0, 0⟩).2,
    ?_, ?_, ?_, ?_, ?_⟩
  · intro hK
    exact chainAux_start_head t terms 0 ⟨0, 0, 0⟩ (List.length_pos.mp hK)
  · intro i hi
    exact chainAux_center_eq_start t terms 0 ⟨0, 0, 0⟩ i hi
  · intro i hi
    refine ⟨chainAux_chain t terms 0 ⟨0, 0, 0⟩ i hi, ?_⟩
    rw [chainAux_chain t terms 0 ⟨0, 0, 0⟩ i hi]
    exact (chainAux_center_eq_start t terms 0 ⟨0, 0, 0⟩ (i + 1) (by omega)).symm
  · exact chainAux_final t terms 0 ⟨0, 0, 0⟩
  · intro hK
    rw [chainAux_last_stop t terms 0 ⟨0, 0, 0⟩ (List.length_pos.mp hK),
      chainAux_final t terms 0 ⟨0, 0, 0⟩]
    rfl

/-- Witness for C3 on the single-term set `[(1, 1)]` at `t = 0`. -/
theorem c3_frames_witness :
    0 < [((1 : ℤ), (1 : ℂ))].length
    ∧ ((frameChain [((1 : ℤ), (1 : ℂ))] 0).2.1.getD 0 vdef).start = ⟨0, 0, 0⟩
    ∧ ((frameChain [((1 : ℤ), (1 : ℂ))] 0).2.1.getD
        ([((1 : ℤ), (1 : ℂ))].length - 1) vdef).stop
      = toVec3 (penPoint [((1 : ℤ), (1 : ℂ))] 0) :=
  ⟨by norm_num, (c3_frames [((1 : ℤ), (1 : ℂ))] 0).2.2.1 (by norm_num),
    (c3_frames [((1 : ℤ), (1 : ℂ))] 0).2.2.2.2.2.2 (by norm_num)⟩

lemma penFrom_eq_sum (t : ℝ) :
    ∀ (l : List (ℤ × ℂ)) (z : ℂ),
      penFrom t z l = z + (l.map fun p => p.2 * epiRot p.1 t).sum := by
  intro l
  induction l with
  | nil => intro z; simp [penFrom]
  | cons p rest ih =>
    intro z
    show penFrom t (z + p.2 * epiRot p.1 t) rest = _
    rw [ih, List.map_cons, List.sum_cons, add_assoc]

lemma pathPoint_getD (terms : List (ℤ × ℂ)) (S s : ℕ) (h : s < S) :
    (precompute_animation terms S).1.getD s ⟨0, 0, 0⟩
      = toVec3 (penPoint terms ((s : ℝ) / (S : ℝ))) := by
  unfold precompute_animation
  rw [List.getD_eq_getElem?_getD, List.getElem?_map, List.getElem?_range h]
  rfl

lemma penPoint_single (t : ℝ) : penPoint [((1 : ℤ), (1 : ℂ))] t = epiRot 1 t := by
  show penFrom t ((0 : ℂ) + 1 * epiRot 1 t) [] = epiRot 1 t
  show (0 : ℂ) + 1 * epiRot 1 t = epiRot 1 t
  rw [zero_add, one_mul]

lemma epiRot_one_eval (t : ℝ) :
    epiRot 1 t = Complex.exp (((2 * Real.pi * t : ℝ) : ℂ) * Complex.I) := by
  unfold epiRot
  push_cast
  ring_nf

lemma exp_pi_div_two_mul_I :
    Complex.exp (((Real.pi / 2 : ℝ) : ℂ) * Complex.I) = Complex.I := by
  rw [Complex.exp_mul_I, ← Complex.ofReal_cos, ← Complex.ofReal_sin,
    Real.cos_pi_div_two, Real.sin_pi_div_two]
  simp

lemma exp_three_pi_div_two_mul_I :
    Complex.exp (((3 * Real.pi / 2 : ℝ) : ℂ) * Complex.I) = -Complex.I := by
  have h : ((3 * Real.pi / 2 : ℝ) : ℂ) * Complex.I
      = (Real.pi : ℂ) * Complex.I + ((Real.pi / 2 : ℝ) : ℂ) * Complex.I := by
    push_cast
    ring
  rw [h, Complex.exp_add, Complex.exp_pi_mul_I, exp_pi_div_two_mul_I]
  ring

lemma epiRot_one_zero : epiRot 1 (0 : ℝ) = 1 := by
  rw [epiRot_one_eval]
  norm_num

lemma epiRot_one_quarter : epiRot 1 ((1 : ℝ) / 4) = Complex.I := by
  rw [epiRot_one_eval]
  have h : (2 * Real.pi * (1 / 4) : ℝ) = Real.pi / 2 := by ring
  rw [h, exp_pi_div_two_mul_I]

lemma epiRot_one_half : epiRot 1 ((2 : ℝ) / 4) = -1 := by
  rw [epiRot_one_eval]
  have h : (2 * Real.pi * (2 / 4) : ℝ) = Real.pi := by ring
  rw [h]
  exact_mod_cast Complex.exp_pi_mul_I

lemma epiRot_one_threeq : epiRot 1 ((3 : ℝ) / 4) = -Complex.I := by
  rw [epiRot_one_eval]
  have h : (2 * Real.pi * (3 / 4) : ℝ) = 3 * Real.pi / 2 := by ring
  rw [h, exp_three_pi_div_two_mul_I]

/-- C5: the pen position at step `s` of `S` is the sum over all retained
terms of `coefficient * exp(2πi * frequency * s / S)`; in particular, for
the single-term set `[(1, 1 + 0i)]` with `S = 4`, the four pen positions
are `(1, 0)`, `(0, 1)`, `(-1, 0)`, `(0, -1)`. -/
theorem c5_pen :
    (∀ (terms : List (ℤ × ℂ)) (S s : ℕ), s < S →
      (precompute_animation terms S).1.getD s ⟨0, 0, 0⟩
        = toVec3 ((terms.map fun p => p.2 * epiRot p.1 ((s : ℝ) / (S : ℝ))).sum))
    ∧ (precompute_animation [((1 : ℤ), (1 : ℂ))] 4).1
        = [⟨1, 0, 0⟩, ⟨0, 1, 0⟩, ⟨-1, 0, 0⟩, ⟨0, -1, 0⟩] := by
  constructor
  · intro terms S s h
    rw [pathPoint_getD terms S s h]
    unfold penPoint
    rw [penFrom_eq_sum, zero_add]
  · have h4 : List.range 4 = [0, 1, 2, 3] := rfl
    show (List.range 4).map
        (fun s : ℕ => toVec3 (penPoint [((1 : ℤ), (1 : ℂ))] ((s : ℝ) / ((4 : ℕ) : ℝ)))) = _
    rw [h4]
    simp only [List.map_cons, List.map_nil, penPoint_single]
    have e0 : (((0 : ℕ) : ℝ) / ((4 : ℕ) : ℝ)) = (0 : ℝ) := by norm_num
    have e1 : (((1 : ℕ) : ℝ) / ((4 : ℕ) : ℝ)) = (1 : ℝ) / 4 := by norm_num
    have e2 : (((2 : ℕ) : ℝ) / ((4 : ℕ) : ℝ)) = (2 : ℝ) / 4 := by norm_num
    have e3 : (((3 : ℕ) : ℝ) / ((4 : ℕ) : ℝ)) = (3 : ℝ) / 4 := by norm_num
    rw [e0, e1, e2, e3, epiRot_one_zero, epiRot_one_quarter, epiRot_one_half,
      epiRot_one_threeq]
    norm_num [toVec3, Complex.one_re, Complex.one_im, Complex.I_re, Complex.I_im]

/-- Witness for C5 at the single-term set, `S = 4`, `s = 0`. -/
theorem c5_pen_witness :
    (0 : ℕ) < 4
    ∧ (precompute_animation [((1 : ℤ), (1 : ℂ))] 4).1.getD 0 ⟨0, 0, 0⟩
      = toVec3 (([((1 : ℤ), (1 : ℂ))].map
          fun p => p.2 * epiRot p.1 (((0 : ℕ) : ℝ) / ((4 : ℕ) : ℝ))).sum) :=
  ⟨by norm_num, c5_pen.1 [((1 : ℤ), (1 : ℂ))] 4 0 (by norm_num)⟩

/-! ## C7 — degenerate (zero-extent) geometry is non-fatal -/

lemma headD_replicate (n : ℕ) (p : Point) (hn : 0 < n) :
    headD (0, 0) (List.replicate n p) = p := by
  cases n with
  | zero => omega
  | succ n => rfl

lemma lastD_replicate (n : ℕ) (p : Point) (hn : 0 < n) :
    lastD (0, 0) (List.replicate n p) = p := by
  induction n with
  | zero => omega
  | succ n ih =>
    cases n with
    | zero => rfl
    | succ m =>
      show lastD (0, 0) (p :: List.replicate (m + 1) p) = p
      exact ih (by omega)

lemma closeStep_replicate (n : ℕ) (p : Point) (hn : 0 < n) :
    closeStep (List.replicate n p) = List.replicate n p := by
  unfold closeStep
  rw [headD_replicate n p hn, lastD_replicate n p hn]
  rw [if_neg]
  norm_num [tolSq, sqDist]

lemma meanPoint_replicate (n : ℕ) (p : Point) (hn : 0 < n) :
    meanPoint (List.replicate n p) = p := by
  unfold meanPoint
  rw [List.map_replicate, List.map_replicate, List.sum_replicate, List.sum_replicate,
    List.length_replicate, nsmul_eq_mul, nsmul_eq_mul]
  have hne : (n : ℚ) ≠ 0 := Nat.cast_ne_zero.mpr (by omega)
  rw [mul_div_cancel_left₀ _ hne, mul_div_cancel_left₀ _ hne]

lemma centerPts_replicate (n : ℕ) (p : Point) (hn : 0 < n) :
    centerPts (List.replicate n p) = List.replicate n ((0 : ℚ), (0 : ℚ)) := by
  unfold centerPts
  rw [meanPoint_replicate n p hn, List.map_replicate]
  simp

lemma maxAbsComp_replicate_zero (n : ℕ) :
    maxAbsComp (List.replicate n ((0 : ℚ), (0 : ℚ))) = 0 := by
  induction n with
  | zero => rfl
  | succ n ih =>
    rw [List.replicate_succ, maxAbsComp_cons, ih]
    simp [absComp]

lemma fftfreqs_length (N : ℕ) : (fftfreqs N).length = N := by
  unfold fftfreqs
  rw [List.length_map, List.length_range]

lemma map_point_zero (n : ℕ) :
    ((List.replicate n ((0 : ℚ), (0 : ℚ))).map
      fun p : Point => (⟨(p.1 : ℝ), (p.2 : ℝ)⟩ : ℂ)) = List.replicate n 0 := by
  rw [List.map_replicate]
  congr 1
  apply Complex.ext <;> simp

lemma dftCoeff_zero_list (n : ℕ) (k : ℤ) :
    dftCoeff (List.replicate n (0 : ℂ)) k = 0 := by
  unfold dftCoeff
  rw [List.length_replicate]
  rw [List.sum_eq_zero, zero_div]
  intro x hx
  obtain ⟨j, hj, rfl⟩ := List.mem_map.mp hx
  have hz : (List.replicate n (0 : ℂ)).getD j 0 = 0 := by
    rw [List.getD_eq_getElem?_getD, List.getElem?_replicate]
    split <;> rfl
  rw [hz, zero_mul]

lemma cfc_zero (n : ℕ) :
    compute_fourier_coefficients (List.replicate n ((0 : ℚ), (0 : ℚ)))
      = (fftfreqs n).map (fun k => (k, (0 : ℝ), (0 : ℝ))) := by
  unfold compute_fourier_coefficients
  rw [List.length_replicate, map_point_zero]
  apply List.map_congr_left
  intro k _
  rw [dftCoeff_zero_list]
  simp

lemma cfc_nil : compute_fourier_coefficients ([] : List Point) = [] := rfl

/-- C7: an input whose points all coincide is non-fatal.  After closing
(a no-op here) and centering, the extent is zero, so the scaling step is
skipped and the normalized output is the centered all-zero cloud; the
Fourier stage produces an all-zero coefficient per standard bin, and the
selection stage completes (returns a value rather than raising) as long
as `min_epicycles` does not exceed the term count; only the structurally
invalid empty input makes the selection stage fail.  (In the Python
source the zero-total-energy ratios are numpy `nan` values, which
compare false against the positive threshold exactly as the `x / 0 = 0`
convention does here, and are reported, not raised.) -/
theorem c7_degenerate (p : Point) (n : ℕ) (cfg : EpiConfig ℝ) (s : ℚ)
    (hn : 0 < n) (hmin1 : 1 ≤ cfg.min_epicycles) (hmin : cfg.min_epicycles ≤ n) :
    maxAbsComp (centerPts (closeStep (List.replicate n p))) = 0
    ∧ normalizeTraversal s (List.replicate n p) = List.replicate n ((0 : ℚ), (0 : ℚ))
    ∧ compute_fourier_coefficients (List.replicate n ((0 : ℚ), (0 : ℚ)))
        = (fftfreqs n).map (fun k => (k, (0 : ℝ), (0 : ℝ)))
    ∧ (find_optimal_epicycles cfg
        (compute_fourier_coefficients (List.replicate n ((0 : ℚ), (0 : ℚ))))).isSome
          = true
    ∧ find_optimal_epicycles cfg (compute_fourier_coefficients ([] : List Point))
        = none := by
  have hmax : maxAbsComp (centerPts (closeStep (List.replicate n p))) = 0 := by
    rw [closeStep_replicate n p hn, centerPts_replicate n p hn,
      maxAbsComp_replicate_zero]
  have hlen : (compute_fourier_coefficients
      (List.replicate n ((0 : ℚ), (0 : ℚ)))).length = n := by
    rw [cfc_zero, List.length_map, fftfreqs_length]
  refine ⟨hmax, ?_, cfc_zero n, ?_, ?_⟩
  · unfold normalizeTraversal
    rw [closeStep_replicate n p hn, centerPts_replicate n p hn]
    unfold scaleStep
    rw [if_neg]
    rw [maxAbsComp_replicate_zero]
    exact lt_irrefl 0
  · rw [Option.isSome_iff_ne_none]
    intro hnone
    rw [find_eq_none_iff, hlen] at hnone
    omega
  · rw [cfc_nil, find_eq_none_iff]
    simpa using hmin1

/-- Witness for C7: two coincident points, the sample `ℝ` configuration,
scale factor 8. -/
theorem c7_degenerate_witness :
    0 < 2
    ∧ 1 ≤ cfgR.min_epicycles
    ∧ cfgR.min_epicycles ≤ 2
    ∧ (maxAbsComp (centerPts (closeStep (List.replicate 2 ((3 : ℚ), (4 : ℚ))))) = 0
      ∧ normalizeTraversal 8 (List.replicate 2 ((3 : ℚ), (4 : ℚ)))
          = List.replicate 2 ((0 : ℚ), (0 : ℚ))
      ∧ compute_fourier_coefficients (List.replicate 2 ((0 : ℚ), (0 : ℚ)))
          = (fftfreqs 2).map (fun k => (k, (0 : ℝ), (0 : ℝ)))
      ∧ (find_optimal_epicycles cfgR
          (compute_fourier_coefficients (List.replicate 2 ((0 : ℚ), (0 : ℚ))))).isSome
            = true
      ∧ find_optimal_epicycles cfgR (compute_fourier_coefficients ([] : List Point))
          = none) :=
  ⟨by norm_num, by norm_num [cfgR], by norm_num [cfgR],
    c7_degenerate ((3 : ℚ), (4 : ℚ)) 2 cfgR 8 (by norm_num) (by norm_num [cfgR])
      (by norm_num [cfgR])⟩

end Epicycles
